import Mathlib

/-!
Shallow embedding of `autodoc.py` (Amiga-style autodoc extractor).

Python strings are modelled as `List Char` (`Str`).  The three regular
expressions of `autodoclist.__init__` are hand-compiled into executable
matchers that reproduce the backtracking semantics of Python's `re` on
those concrete patterns.  The `while True` scanning loop of
`autodoclist.parse_file` is modelled as a step function plus a fuel-indexed
runner (the loop can genuinely diverge, see the theorems about claim C1).
-/

abbrev Str := List Char

/-- Python's `\s` (ASCII range): space, tab, newline, vertical tab,
form feed, carriage return. -/
def isPySpace (c : Char) : Bool :=
  c = ' ' || c = '\t' || c = '\n' || c = '\x0b' || c = '\x0c' || c = '\r'

/-- Terminator characters recognised by Python's `str.splitlines`. -/
def isLineBreak (c : Char) : Bool :=
  c = '\n' || c = '\r' || c = '\x0b' || c = '\x0c' ||
  c = '\x1c' || c = '\x1d' || c = '\x1e' || c = '\x85' ||
  c = '\u2028' || c = '\u2029'

/-- Length of the maximal leading run of `'*'` characters. -/
def starRun : Str → Nat
  | [] => 0
  | c :: cs => if c = '*' then starRun cs + 1 else 0

/-- One line of `str.splitlines(True)`: the first line (terminator kept)
and the remainder.  `"\r\n"` counts as a single terminator. -/
def takeLine : Str → Str × Str
  | [] => ([], [])
  | c :: cs =>
      if c = '\r' ∧ cs.head? = some '\n' then (['\r', '\n'], cs.tail)
      else if isLineBreak c then ([c], cs)
      else
        let p := takeLine cs
        (c :: p.1, p.2)

/-- Fuel-indexed worker for `splitLinesKeep`; the fuel only bounds the
recursion depth and any fuel at least the text length gives the same
result (`splitLinesGo_congr`). -/
def splitLinesGo : Nat → Str → List Str
  | _, [] => []
  | 0, _ :: _ => []
  | n + 1, c :: cs =>
      let p := takeLine (c :: cs)
      p.1 :: splitLinesGo n p.2

/-- `str.splitlines(True)` (keepends). -/
def splitLinesKeep (s : Str) : List Str := splitLinesGo s.length s

/-- The rest of the text after the first `'\n'` (used to step `re.search`
from one MULTILINE `^` anchor to the next). -/
def afterNl : Str → Str
  | [] => []
  | c :: cs => if c = '\n' then cs else afterNl cs

/-- The prefix of the text up to and including the first `'\n'`
(`none` when there is no `'\n'`).  This is group 1 of
`body_regex = ^\*{1,}(.*$\n)` after the star run: `.*` cannot cross a
newline, `$` (MULTILINE) matches just before `'\n'`, and the literal
`\n` consumes it. -/
def upToNl : Str → Option Str
  | [] => none
  | c :: cs => if c = '\n' then some ['\n'] else (upToNl cs).map (c :: ·)

/-- `tail_regex = ^\*{3,}` applied with `.match` to one line: the line
starts with at least three `'*'`. -/
def tail_match (line : Str) : Bool :=
  3 ≤ starRun line

/-- `body_regex = ^\*{1,}(.*$\n)` applied with `.match` to one line:
at least one leading star, then group 1 runs to the first newline
(inclusive); no match when the line has no `'\n'`. -/
def body_match (line : Str) : Option Str :=
  if 1 ≤ starRun line then upToNl (line.drop (starRun line)) else none

/-- The part of `head_regex` after `\*{j}`, namely `(.)\* (\S*) \**`:
a non-newline classification character, a star, a space, a maximal
(possibly empty) run of non-whitespace characters (the name), a space,
then a greedy run of trailing stars.  Returns
(classification, name, rest-after-match). -/
def headAfterStars : Str → Option (Char × Str × Str)
  | [] => none
  | c :: cs =>
      if c = '\n' then none
      else
        match cs with
        | [] => none
        | c2 :: rest =>
            if c2 = '*' then
              match rest with
              | [] => none
              | c3 :: rest2 =>
                  if c3 = ' ' then
                    match rest2.drop ((rest2.takeWhile (fun ch => !isPySpace ch)).length) with
                    | [] => none
                    | c4 :: rest4 =>
                        if c4 = ' ' then
                          some (c, rest2.takeWhile (fun ch => !isPySpace ch),
                                rest4.drop (starRun rest4))
                        else none
                  else none
            else none

/-- Backtracking over the greedy `\*{3,}` of `head_regex`: try consuming
`j` stars for `j = k, k-1, ..., 3` (largest first, as the regex engine
does) and finish with `headAfterStars`. -/
def headLoop (cs : Str) : Nat → Option (Char × Str × Str)
  | 0 => none
  | 1 => none
  | 2 => none
  | (j + 3) =>
      match headAfterStars (cs.drop (j + 3)) with
      | some r => some r
      | none => headLoop cs (j + 2)

/-- `head_regex = ^/\*\s?\*{3,}(.)\* (\S*) \**` tried at one position:
literal `/*`, an optional whitespace character (if the next character is
whitespace it must be consumed, since `\*` cannot match it; if the
consumed prefix fails, retrying with `\s?` empty puts `\*` on that same
whitespace character, which also fails), then the star-run backtracking
loop. -/
def headMatchAt (s : Str) : Option (Char × Str × Str) :=
  match s with
  | c1 :: c2 :: cs =>
      if c1 = '/' ∧ c2 = '*' then
        match cs with
        | [] => none
        | c :: rest =>
            if isPySpace c then headLoop rest (starRun rest)
            else headLoop cs (starRun cs)
      else none
  | _ => none

/-- `head_regex.search` over the whole text: with `re.MULTILINE` the `^`
anchor restricts candidate start positions to position 0 and each
position right after a `'\n'`; the leftmost anchored match wins. -/
def headSearchGo : Nat → Str → Option (Char × Str × Str)
  | 0, _ => none
  | n + 1, s =>
      match headMatchAt s with
      | some r => some r
      | none =>
          match s with
          | [] => none
          | c :: cs => headSearchGo n (afterNl (c :: cs))

def head_search (s : Str) : Option (Char × Str × Str) :=
  headSearchGo (s.length + 1) s

/-- Leftmost-non-overlapping replacement of the pattern `p :: ps` by
`rep`, as Python's `str.replace` does (the pattern here is always
non-empty, split into first character and rest). -/
def replaceGo (p : Char) (ps rep : Str) : Nat → Str → Str
  | _, [] => []
  | 0, s => s
  | n + 1, c :: cs =>
      if c = p ∧ List.isPrefixOf ps cs then
        rep ++ replaceGo p ps rep n (cs.drop ps.length)
      else c :: replaceGo p ps rep n cs

def replaceAll (p : Char) (ps rep : Str) (s : Str) : Str :=
  replaceGo p ps rep s.length s

/-- The per-line substitutions of `parse_file` (lines 235-237): unless
`-c` was given, replace `\*` by `/*` and then `*\` by `*/`. -/
def escape_body (rawEsc : Bool) (s : Str) : Str :=
  if rawEsc then s
  else replaceAll '*' ['\\'] ['*', '/'] (replaceAll '\\' ['*'] ['/', '*'] s)

/-- Command line arguments record, mirroring the `args` dict with its
defaults (lines 41-50). -/
structure Args where
  i : Bool := false
  o : Bool := false
  u : Bool := false
  l : Int := 78
  c : Bool := false
  f : Bool := false
  I : Bool := false
deriving DecidableEq, Repr

/-- A single parsed autodoc (class `autodoc`, lines 111-115): the
constructor stores `name` and `body` as given; `body` is always a defined
string (possibly empty). -/
structure Autodoc where
  name : Str
  body : Str
deriving DecidableEq, Repr

/-- The filtering policy applied to a header's classification character
(lines 195-213): two exclusion `continue`s followed by four independent
inclusion `if`s, each setting `inside_autodoc = True`.  Returns whether
the parser enters the COLLECTING state. -/
def filter_decision (a : Args) (t : Char) : Bool :=
  if a.i = true ∧ t ≠ 'i' then false
  else if a.o = true ∧ t ≠ 'o' then false
  else (a.i && (t == 'i')) || (a.o && (t == 'o')) || (a.u && (t == 'f')) || (t == '*')

/-- Modelled from the spec: the seven-rule priority list of section 4.1,
evaluated in the stated order with the first matching rule deciding
(rules 1-2 exclude, rules 3-6 enter COLLECTING, rule 7 stays
SEARCHING).  Used only to compare against `filter_decision`. -/
def filter_spec_rules (a : Args) (t : Char) : Bool :=
  if a.i = true ∧ t ≠ 'i' then false
  else if a.o = true ∧ t ≠ 'o' then false
  else if a.i = true ∧ t = 'i' then true
  else if a.o = true ∧ t = 'o' then true
  else if a.u = true ∧ t = 'f' then true
  else if t = '*' then true
  else false

/-- The body-collection `for` loop (lines 218-239): scan the lines of the
remaining content; the first line matching `tail_regex` closes the block
and returns the accumulated body; a `body_regex` line contributes its
(escaped) group 1; other lines are ignored.  `none` means the line list
was exhausted with no trailer (`inside_autodoc` stays true). -/
def collect_lines (rawEsc : Bool) : List Str → Str → Option Str
  | [], _ => none
  | line :: rest, body =>
      if tail_match line then some body
      else
        match body_match line with
        | some g1 => collect_lines rawEsc rest (body ++ escape_body rawEsc g1)
        | none => collect_lines rawEsc rest body

/-- Parser state of `autodoclist.parse_file`: the `inside_autodoc` flag,
the pending `name`, the accumulated `autodocs` list and the remaining
`content`. -/
structure PState where
  inside : Bool
  name : Str
  docs : List Autodoc
  content : Str
deriving DecidableEq, Repr

/-- One iteration of the `while True` loop of `parse_file`
(lines 184-239).  `none` models the `break` when no further header is
found.  Note two faithful details: on a trailer match the content is
NOT advanced (the code never slices `content` there), and when no
trailer is found the state is returned unchanged (the loop body then
repeats identically). -/
def parse_step (a : Args) (s : PState) : Option PState :=
  if s.inside then
    match collect_lines a.c (splitLinesKeep s.content) [] with
    | some body =>
        some { s with inside := false,
                      docs := s.docs ++ [{ name := s.name, body := body }] }
    | none => some s
  else
    match head_search s.content with
    | none => none
    | some (t, nm, rest) =>
        some { s with name := nm, content := rest,
                      inside := filter_decision a t }

/-- Fuel-indexed execution of the `while True` loop; `none` means the
fuel ran out before the loop `break`ed. -/
def run_loop (a : Args) : Nat → PState → Option (List Autodoc)
  | 0, _ => none
  | n + 1, s =>
      match parse_step a s with
      | none => some s.docs
      | some s' => run_loop a n s'

/-- `autodoclist.parse_file` on the full text of one input (file reading
itself is an external collaborator, spec section 6): start SEARCHING with
an empty collection. -/
def parse_file (a : Args) (fuel : Nat) (content : Str) : Option (List Autodoc) :=
  run_loop a fuel { inside := false, name := [], docs := [], content := content }

/-- Modelled from the spec: body collection as section 4.1 words it,
additionally returning the lines after the trailer so that scanning can
resume "from the position right after this trailer line".  Used only to
compare against the code's `collect_lines`/`parse_step`. -/
def collect_lines_specResume (rawEsc : Bool) :
    List Str → Str → Option (Str × List Str)
  | [], _ => none
  | line :: rest, body =>
      if tail_match line then some (body, rest)
      else
        match body_match line with
        | some g1 => collect_lines_specResume rawEsc rest (body ++ escape_body rawEsc g1)
        | none => collect_lines_specResume rawEsc rest body

/-- Modelled from the spec: the parse loop with the section 4.1 trailer
rule - after a trailer closes a block, header scanning resumes from the
position right after the trailer line. -/
def parse_step_specResume (a : Args) (s : PState) : Option PState :=
  if s.inside then
    match collect_lines_specResume a.c (splitLinesKeep s.content) [] with
    | some (body, restLines) =>
        some { s with inside := false,
                      docs := s.docs ++ [{ name := s.name, body := body }],
                      content := restLines.flatten }
    | none => some s
  else
    match head_search s.content with
    | none => none
    | some (t, nm, rest) =>
        some { s with name := nm, content := rest,
                      inside := filter_decision a t }

/-- Fuel-indexed runner for the spec-worded variant. -/
def run_loop_specResume (a : Args) : Nat → PState → Option (List Autodoc)
  | 0, _ => none
  | n + 1, s =>
      match parse_step_specResume a s with
      | none => some s.docs
      | some s' => run_loop_specResume a n s'

/-- Modelled from the spec: whole-input parsing with the
resume-after-trailer rule of section 4.1. -/
def parse_file_specResume (a : Args) (fuel : Nat) (content : Str) :
    Option (List Autodoc) :=
  run_loop_specResume a fuel { inside := false, name := [], docs := [], content := content }

/-- Python's `body.split('\n')` (line 134): split on every `'\n'`,
separators removed; the result always has at least one element. -/
def pySplitNl : Str → List Str
  | [] => [[]]
  | c :: cs =>
      if c = '\n' then [] :: pySplitNl cs
      else
        match pySplitNl cs with
        | l :: ls => (c :: l) :: ls
        | [] => [[c]]

/-- Python slice index: a negative index counts from the end, clamped
at 0 (`s[:n]` / `s[n:]`). -/
def pySliceIdx (len : Nat) (n : Int) : Nat :=
  if 0 ≤ n then n.toNat else len - (-n).toNat

def pyTake (s : Str) (n : Int) : Str := s.take (pySliceIdx s.length n)

def pyDrop (s : Str) (n : Int) : Str := s.drop (pySliceIdx s.length n)

/-- `print_form_feed` (lines 102-105): a single form feed character
unless `-f` was given. -/
def print_form_feed (a : Args) : Str :=
  if a.f then [] else ['\x0c']

/-- The handling of one non-final body line in `autodoc.write`
(lines 135-144): a line shorter than the width is written as is; any
other line is split once at column `width - 1`; in both cases the outer
`write('\n')` appends one line break. -/
def write_body_line (width : Int) (line : Str) : Str :=
  if (line.length : Int) < width then line ++ ['\n']
  else pyTake line (width - 1) ++ '\n' :: (pyDrop line (width - 1) ++ ['\n'])

/-- `autodoc.write` (lines 127-149): name, line break, every line of
`body.split('\n')` except the last through `write_body_line`, then the
last line with no appended break, then the optional form feed. -/
def adoc_write (a : Args) (d : Autodoc) : Str :=
  let lines := pySplitNl d.body
  d.name ++ '\n' ::
    ((lines.dropLast.map (write_body_line a.l)).flatten ++
      (lines.getLastD [] ++ print_form_feed a))

/-- `autodoc.write_toc_entry` (lines 122-125). -/
def write_toc_entry (d : Autodoc) : Str := d.name ++ ['\n']

/-- `autodoclist.write_toc` (lines 246-254). -/
def write_toc (a : Args) (docs : List Autodoc) : Str :=
  "TABLE OF CONTENTS\n\n".toList ++ (docs.map write_toc_entry).flatten ++
    "\n\n".toList ++ print_form_feed a

/-- `autodoclist.write_autodocs` (lines 256-260). -/
def write_autodocs (a : Args) (docs : List Autodoc) : Str :=
  (docs.map (adoc_write a)).flatten

/-- `str.lower()` applied characterwise (ASCII case mapping). -/
def lowerStr (s : Str) : Str := s.map Char.toLower

/-- Python's `<` on strings: lexicographic by code point. -/
def strLt : Str → Str → Bool
  | [], [] => false
  | [], _ :: _ => true
  | _ :: _, [] => false
  | a :: as, b :: bs => if a < b then true else if b < a then false else strLt as bs

/-- `autodoc.__lt__` (lines 117-120): compare lowercased names. -/
def adoc_lt (x y : Autodoc) : Bool :=
  strLt (lowerStr x.name) (lowerStr y.name)

/-- Stable insertion of one element: it goes in front of the first
element that is not strictly below it. -/
def insertDoc (d : Autodoc) : List Autodoc → List Autodoc
  | [] => [d]
  | e :: es => if adoc_lt e d then e :: insertDoc d es else d :: e :: es

/-- `autodoclist.sort` (lines 241-244): Python's `list.sort()` is a
stable comparison sort driven by `__lt__`; since `adoc_lt` induces a
strict weak order, every stable sort produces the same list, so a
stable insertion sort models it exactly. -/
def sort_autodocs : List Autodoc → List Autodoc
  | [] => []
  | d :: ds => insertDoc d (sort_autodocs ds)

/-- Option characters of the `getopt` option string `"ioul:cfI"`. -/
def isOptChar (c : Char) : Bool :=
  c = 'i' || c = 'o' || c = 'u' || c = 'l' || c = 'c' || c = 'f' || c = 'I'

/-- Option characters that take a value (`l:`). -/
def needsArg (c : Char) : Bool := c = 'l'

/-- `getopt`'s handling of one `-abc` cluster: each character is an
option; an option requiring a value takes the rest of the cluster, or
else the next argument; an unrecognised character raises `GetoptError`
(`none`). -/
def doShorts : Str → List Str → Option (List (Char × Str) × List Str)
  | [], argv => some ([], argv)
  | c :: cs, argv =>
      if needsArg c then
        if cs ≠ [] then some ([(c, cs)], argv)
        else
          match argv with
          | [] => none
          | v :: argv2 => some ([(c, v)], argv2)
      else if isOptChar c then
        (doShorts cs argv).map (fun r => ((c, []) :: r.1, r.2))
      else none

/-- `getopt.getopt(argv, "ioul:cfI")`: process `-x...` clusters left to
right, stop at `--` or at the first non-option argument; `none` models
`GetoptError`.  Fuel-indexed: each step consumes at least the head
argument, so `argv.length + 1` fuel always suffices. -/
def getoptGo : Nat → List Str → Option (List (Char × Str) × List Str)
  | 0, argv => some ([], argv)
  | n + 1, argv =>
      match argv with
      | [] => some ([], [])
      | arg :: rest =>
          if arg = "--".toList then some ([], rest)
          else
            match arg with
            | c0 :: c1 :: cs =>
                if c0 = '-' then
                  match doShorts (c1 :: cs) rest with
                  | none => none
                  | some (os, rest2) =>
                      match getoptGo n rest2 with
                      | none => none
                      | some (os2, files) => some (os ++ os2, files)
                else some ([], arg :: rest)
            | _ => some ([], arg :: rest)

def getoptLoop (argv : List Str) : Option (List (Char × Str) × List Str) :=
  getoptGo (argv.length + 1) argv

/-- Python's `int(str)`: optional surrounding whitespace, optional sign,
then one or more decimal digits; anything else raises `ValueError`
(`none`). -/
def pyInt (s : Str) : Option Int :=
  let t := ((s.dropWhile (fun c => isPySpace c)).reverse.dropWhile
      (fun c => isPySpace c)).reverse
  match t with
  | [] => none
  | c :: ds =>
      if c = '-' then
        if ds ≠ [] ∧ ds.all Char.isDigit then
          some (-(ds.foldl (fun acc ch => acc * 10 + (ch.toNat - '0'.toNat)) 0 : Nat))
        else none
      else if c = '+' then
        if ds ≠ [] ∧ ds.all Char.isDigit then
          some ((ds.foldl (fun acc ch => acc * 10 + (ch.toNat - '0'.toNat)) 0 : Nat))
        else none
      else if (c :: ds).all Char.isDigit then
        some (((c :: ds).foldl (fun acc ch => acc * 10 + (ch.toNat - '0'.toNat)) 0 : Nat))
      else none

/-- Outcome of `parse_args` as observed by `__main__` (lines 63-99 and
263-266): `ok` = returns `True` (parsing proceeds), `usage` = returns
`False` (usage text printed, `exit(1)`), `valueError` = the uncaught
`ValueError` raised by `int(val)` on line 83 (traceback, non-zero exit,
no usage text). -/
inductive ArgsOutcome where
  | ok (a : Args) (files : List Str)
  | usage
  | valueError
deriving DecidableEq, Repr

/-- The option-assignment loop of `parse_args` (lines 72-92). -/
def apply_opts : Args → List (Char × Str) → Option Args
  | a, [] => some a
  | a, (c, v) :: rest =>
      if c = 'i' then apply_opts { a with i := true } rest
      else if c = 'o' then apply_opts { a with o := true } rest
      else if c = 'u' then apply_opts { a with u := true } rest
      else if c = 'l' then
        match pyInt v with
        | none => none
        | some n => apply_opts { a with l := n } rest
      else if c = 'c' then apply_opts { a with c := true } rest
      else if c = 'f' then apply_opts { a with f := true } rest
      else if c = 'I' then apply_opts { a with I := true } rest
      else apply_opts a rest

/-- `parse_args` (lines 63-99): `GetoptError` is caught and reported as
a usage error; a `ValueError` from `int(val)` is NOT caught and escapes;
an empty file list is a usage error. -/
def parse_args (argv : List Str) : ArgsOutcome :=
  match getoptLoop argv with
  | none => ArgsOutcome.usage
  | some (opts, files) =>
      match apply_opts {} opts with
      | none => ArgsOutcome.valueError
      | some a => if files = [] then ArgsOutcome.usage else ArgsOutcome.ok a files

/-- A canonical well-formed autodoc block, used to state the
spec's "for every well-formed input containing blocks B1..Bn"
properties: classification character, name, body lines. -/
structure Block where
  btype : Char
  name : Str
  lines : List Str
deriving DecidableEq, Repr

/-- Canonical header line for a block:
`/* ***<t>* <name> ***` followed by a newline.  For `btype = '*'` this
is the five-star default-classification header shape. -/
def blockHeader (b : Block) : Str :=
  ['/', '*', ' ', '*', '*', '*', b.btype, '*', ' '] ++ b.name ++
    [' ', '*', '*', '*', '\n']

/-- Canonical body line for one line of content: one leading marker
star, the content, a newline. -/
def bodyLineText (l : Str) : Str := '*' :: (l ++ ['\n'])

/-- Canonical trailer line `*** */` plus newline. -/
def trailerText : Str := ['*', '*', '*', ' ', '*', '/', '\n']

/-- The full canonical text of one block. -/
def blockText (b : Block) : Str :=
  blockHeader b ++ ((b.lines.map bodyLineText).flatten ++ trailerText)

/-- Canonical text of a sequence of blocks. -/
def blocksText (bs : List Block) : Str := (bs.map blockText).flatten

/-- Well-formedness of a name: non-empty and free of whitespace
characters (so that `(\S*)` captures exactly it). -/
abbrev wfName (nm : Str) : Prop :=
  nm ≠ [] ∧ ∀ ch ∈ nm, isPySpace ch = false

/-- Well-formedness of a body line: free of line terminators and not
starting with a marker star (so the leading star run of the canonical
line is exactly one and `body_regex` strips exactly that star). -/
abbrev wfLine (l : Str) : Prop :=
  (∀ ch ∈ l, isLineBreak ch = false) ∧ l.head? ≠ some '*'

/-- Well-formedness of a canonical block. -/
abbrev wfBlock (b : Block) : Prop :=
  isPySpace b.btype = false ∧ wfName b.name ∧ ∀ l ∈ b.lines, wfLine l

/-- A junk line: already-scanned material that the (never-advanced)
content may still contain in front of the remaining blocks - empty or
starting with a marker star, and free of line terminators. -/
abbrev wfJunk (j : Str) : Prop :=
  (∀ ch ∈ j, isLineBreak ch = false) ∧ (j = [] ∨ j.head? = some '*')

/-- Text of a list of junk lines, each terminated by a newline. -/
def junkText (js : List Str) : Str := (js.map (fun j => j ++ ['\n'])).flatten

/-- The `Autodoc` that parsing a canonical well-formed block produces:
its name, and its body lines each escaped and newline-terminated. -/
def canonical_doc (rawEsc : Bool) (b : Block) : Autodoc :=
  { name := b.name,
    body := (b.lines.map (fun l => escape_body rawEsc (l ++ ['\n']))).flatten }

/-- The documents that the filtering policy keeps from a canonical
block sequence. -/
def keptDocs (a : Args) (bs : List Block) : List Autodoc :=
  (bs.filter (fun b => filter_decision a b.btype)).map (canonical_doc a.c)

theorem takeLine_snd_lt (c : Char) (cs : Str) :
    (takeLine (c :: cs)).2.length < (c :: cs).length := by
  induction cs generalizing c with
  | nil =>
      simp only [takeLine]
      split
      · simp
      · split
        · simp
        · simp [takeLine]
  | cons d ds ih =>
      simp only [takeLine]
      split
      · simp
        omega
      · split
        · simp
        · have := ih d
          simp only [takeLine] at this
          simp only [List.length_cons] at *
          omega

theorem splitLinesGo_congr :
    ∀ (n m : Nat) (s : Str), s.length ≤ n → s.length ≤ m →
      splitLinesGo n s = splitLinesGo m s := by
  intro n
  induction n with
  | zero =>
      intro m s hn _
      have : s = [] := List.length_eq_zero.mp (Nat.le_zero.mp hn)
      subst this
      cases m <;> rfl
  | succ n ih =>
      intro m s hn hm
      cases s with
      | nil => cases m <;> rfl
      | cons c cs =>
          match m, hm with
          | m' + 1, hm =>
              simp only [splitLinesGo]
              have hlt := takeLine_snd_lt c cs
              simp only [List.length_cons] at hn hm hlt
              exact congrArg _ (ih m' _ (by omega) (by omega))

theorem splitLinesKeep_cons (c : Char) (cs : Str) :
    splitLinesKeep (c :: cs) =
      (takeLine (c :: cs)).1 :: splitLinesKeep (takeLine (c :: cs)).2 := by
  unfold splitLinesKeep
  have hlt := takeLine_snd_lt c cs
  simp only [List.length_cons, splitLinesGo]
  refine congrArg _ (splitLinesGo_congr _ _ _ ?_ le_rfl)
  simp only [List.length_cons] at hlt
  omega

theorem afterNl_length_lt (c : Char) (cs : Str) :
    (afterNl (c :: cs)).length < (c :: cs).length := by
  induction cs generalizing c with
  | nil => by_cases h : c = '\n' <;> simp [afterNl, h]
  | cons d ds ih =>
      by_cases h : c = '\n'
      · simp [afterNl, h]
      · simp only [afterNl, if_neg h]
        have := ih d
        simp only [afterNl] at this
        simp only [List.length_cons] at *
        omega

theorem headSearchGo_congr :
    ∀ (n m : Nat) (s : Str), s.length < n → s.length < m →
      headSearchGo n s = headSearchGo m s := by
  intro n
  induction n with
  | zero => intro m s hn; omega
  | succ n ih =>
      intro m s hn hm
      match m, hm with
      | m' + 1, hm =>
          simp only [headSearchGo]
          cases headMatchAt s with
          | some r => simp
          | none =>
              simp only
              cases s with
              | nil => rfl
              | cons c cs =>
                  have hlt := afterNl_length_lt c cs
                  simp only [List.length_cons] at hn hm hlt
                  exact ih m' _ (by omega) (by omega)

theorem head_search_nil : head_search [] = none := rfl

theorem head_search_some {s : Str} {r : Char × Str × Str}
    (h : headMatchAt s = some r) : head_search s = some r := by
  unfold head_search
  simp only [headSearchGo, h]

theorem head_search_step (c : Char) (cs : Str)
    (h : headMatchAt (c :: cs) = none) :
    head_search (c :: cs) = head_search (afterNl (c :: cs)) := by
  unfold head_search
  simp only [List.length_cons, headSearchGo, h]
  have hlt := afterNl_length_lt c cs
  simp only [List.length_cons] at hlt
  exact headSearchGo_congr (cs.length + 1) ((afterNl (c :: cs)).length + 1)
    (afterNl (c :: cs)) (by omega) (by omega)

theorem replaceGo_congr (p : Char) (ps rep : Str) :
    ∀ (n m : Nat) (s : Str), s.length ≤ n → s.length ≤ m →
      replaceGo p ps rep n s = replaceGo p ps rep m s := by
  intro n
  induction n with
  | zero =>
      intro m s hn _
      have : s = [] := List.length_eq_zero.mp (Nat.le_zero.mp hn)
      subst this
      cases m <;> rfl
  | succ n ih =>
      intro m s hn hm
      cases s with
      | nil => cases m <;> rfl
      | cons c cs =>
          match m, hm with
          | m' + 1, hm =>
              simp only [replaceGo]
              simp only [List.length_cons] at hn hm
              split
              · refine congrArg _ (ih m' _ ?_ ?_) <;>
                  simp only [List.length_drop] <;> omega
              · exact congrArg _ (ih m' _ (by omega) (by omega))

theorem replaceAll_nil (p : Char) (ps rep : Str) : replaceAll p ps rep [] = [] := rfl

theorem replaceAll_cons (p : Char) (ps rep : Str) (c : Char) (cs : Str) :
    replaceAll p ps rep (c :: cs) =
      if c = p ∧ List.isPrefixOf ps cs then
        rep ++ replaceAll p ps rep (cs.drop ps.length)
      else c :: replaceAll p ps rep cs := by
  unfold replaceAll
  simp only [List.length_cons, replaceGo]
  split
  · refine congrArg _ (replaceGo_congr p ps rep _ _ _ ?_ le_rfl)
    simp only [List.length_drop]
    omega
  · exact congrArg _ (replaceGo_congr p ps rep _ _ _ le_rfl le_rfl)

theorem replaceAll_append_no_match (p : Char) (ps rep : Str) (t u : Str)
    (h : ∀ ch ∈ t, ch ≠ p) :
    replaceAll p ps rep (t ++ u) = t ++ replaceAll p ps rep u := by
  induction t with
  | nil => simp
  | cons c ts ih =>
      have hc : c ≠ p := h c (by simp)
      rw [List.cons_append, replaceAll_cons, if_neg (by simp [hc])]
      rw [ih (fun ch hch => h ch (by simp [hch]))]
      simp

/-- C4: for every non-final body line, a line shorter than `lineWidth`
is written unmodified followed by one line break; a line of length at
least `lineWidth` (including exactly `lineWidth`) is written as exactly
two physical lines - the first `lineWidth - 1` characters plus a break,
then the whole remainder plus a break, with no further splitting; with
`lineWidth = 10` the 15-character line `0123456789ABCDE` renders as
`012345678` + break + `9ABCDE` + break. -/
theorem c4_body_line_split (w : Int) (line : Str) (hw : 1 ≤ w) :
    ((line.length : Int) < w → write_body_line w line = line ++ ['\n']) ∧
    (w ≤ (line.length : Int) →
      write_body_line w line =
        (line.take (w - 1).toNat ++ ['\n']) ++ (line.drop (w - 1).toNat ++ ['\n'])) ∧
    write_body_line 10 "0123456789ABCDE".toList = "012345678\n9ABCDE\n".toList := by
  refine ⟨?_, ?_, by decide⟩
  · intro h
    simp [write_body_line, h]
  · intro h
    have hnot : ¬ ((line.length : Int) < w) := by omega
    simp only [write_body_line, if_neg hnot, pyTake, pyDrop, pySliceIdx,
      if_pos (by omega : (0 : Int) ≤ w - 1)]
    simp [List.append_assoc]

theorem c4_body_line_split_witness :
    write_body_line 10 "012345678".toList = "012345678\n".toList ∧
    write_body_line 10 "0123456789".toList = "012345678\n9\n".toList := by
  constructor
  · have h := (c4_body_line_split 10 "012345678".toList (by norm_num)).1 (by decide)
    rw [h]
    decide
  · have h := (c4_body_line_split 10 "0123456789".toList (by norm_num)).2.1 (by decide)
    rw [h]
    decide

/-- C8: the claim says a non-numeric line-width value is reported via
the usage text; in the code `int(val)` (line 83) raises a `ValueError`
that `parse_args` does not catch (only `GetoptError` is caught), so the
process dies with a traceback - non-zero exit and no parsing, but no
usage text.  `parse_args` on `-lfoo a.c` yields the `valueError`
outcome, which is distinct from the `usage` outcome. -/
theorem c8_non_numeric_width_value_error :
    parse_args ["-lfoo".toList, "a.c".toList] = ArgsOutcome.valueError ∧
    ArgsOutcome.valueError ≠ ArgsOutcome.usage :=
  ⟨by decide, by decide⟩

/-- C1: the code violates the claim - on an input whose header opens a
block that no later line closes, the `while True` loop of `parse_file`
never terminates: the COLLECTING iteration returns the state unchanged,
so the loop repeats identically forever and `run_loop` returns `none`
for every amount of fuel (it would return `some` for sufficient fuel on
any terminating input). -/
theorem c1_unterminated_block_diverges :
    ∀ fuel : Nat,
      parse_file {} fuel "/* ***** Foo ****\n* one\n".toList = none := by
  have hfix : parse_step {}
      { inside := true, name := "Foo".toList, docs := [],
        content := "\n* one\n".toList } =
      some { inside := true, name := "Foo".toList, docs := [],
             content := "\n* one\n".toList } := by decide
  have hloop : ∀ n, run_loop {} n
      { inside := true, name := "Foo".toList, docs := [],
        content := "\n* one\n".toList } = none := by
    intro n
    induction n with
    | zero => rfl
    | succ n ih =>
        simp only [run_loop, hfix]
        exact ih
  intro fuel
  cases fuel with
  | zero => rfl
  | succ n =>
      have h1 : parse_step {}
          { inside := false, name := [], docs := [],
            content := "/* ***** Foo ****\n* one\n".toList } =
          some { inside := true, name := "Foo".toList, docs := [],
                 content := "\n* one\n".toList } := by decide
      simp only [parse_file, run_loop, h1]
      exact hloop n

/-- C5 counterexample: in the section 8 scenario the parsed body is
`   first line\n   second line\n` (the body regex captures each line's
newline), so `body.split('\n')` ends with an empty string and the
rendered entry ends with `   second line`, a line break, and then the
page-break character - NOT with `   second line` directly followed by
the page break as the claim states. -/
theorem c5_last_line_counterexample :
    parse_file {} 9
        "/* ***** Foo ****\n*   first line\n*   second line\n***** */\n".toList =
      some [{ name := "Foo".toList,
              body := "   first line\n   second line\n".toList }] ∧
    adoc_write {} { name := "Foo".toList,
                    body := "   first line\n   second line\n".toList } =
      "Foo\n   first line\n   second line\n\x0c".toList ∧
    adoc_write {} { name := "Foo".toList,
                    body := "   first line\n   second line\n".toList } ≠
      "Foo\n   first line\n   second line\x0c".toList :=
  ⟨by decide, by decide, by decide⟩

/-- C5 amended: the final element of `body.split('\n')` is written with
no appended break, directly followed by the page-break marker; but the
parser stores each body line with its newline, so that final element is
empty, and the section 8 entry renders as `Foo`, the two body lines
EACH followed by one break, then the page break. -/
theorem c5_last_line_amended :
    (∀ (a : Args) (d : Autodoc), ∃ pre : Str,
      adoc_write a d =
        pre ++ ((pySplitNl d.body).getLastD [] ++ print_form_feed a)) ∧
    adoc_write {} { name := "Foo".toList,
                    body := "   first line\n   second line\n".toList } =
      "Foo\n   first line\n   second line\n\x0c".toList := by
  refine ⟨?_, by decide⟩
  intro a d
  refine ⟨d.name ++ '\n' ::
    ((pySplitNl d.body).dropLast.map (write_body_line a.l)).flatten, ?_⟩
  simp [adoc_write, List.append_assoc]

/-- C6 counterexample: the code never advances `content` past a trailer
(nothing is sliced off in lines 217-228), so after a block closes the
whole body region is rescanned for headers.  Here the header-shaped
line `/* ***** Bar ****` lies BETWEEN Foo's header and Foo's trailer,
yet the code produces a second entry `Bar`; the spec-worded variant
that resumes right after the trailer produces only `Foo`. -/
theorem c6_trailer_rescan_counterexample :
    parse_file {} 20
        "/* ***** Foo ****\n*  alpha\n/* ***** Bar ****\n*  beta\n*** */\nmore\n".toList =
      some [{ name := "Foo".toList, body := "  alpha\n  beta\n".toList },
            { name := "Bar".toList, body := "  beta\n".toList }] ∧
    parse_file_specResume {} 20
        "/* ***** Foo ****\n*  alpha\n/* ***** Bar ****\n*  beta\n*** */\nmore\n".toList =
      some [{ name := "Foo".toList, body := "  alpha\n  beta\n".toList }] ∧
    parse_file {} 20
        "/* ***** Foo ****\n*  alpha\n/* ***** Bar ****\n*  beta\n*** */\nmore\n".toList ≠
      parse_file_specResume {} 20
        "/* ***** Foo ****\n*  alpha\n/* ***** Bar ****\n*  beta\n*** */\nmore\n".toList :=
  ⟨by decide, by decide, by decide⟩

/-- C6 amended: when a trailer closes a block, the closing step appends
the entry and flips back to SEARCHING but leaves `content` exactly as
it was (the position right after the block's HEADER), so the body
region and the trailer line are rescanned for header matches. -/
theorem c6_trailer_keeps_content (a : Args) (s : PState) (body : Str)
    (hin : s.inside = true)
    (hc : collect_lines a.c (splitLinesKeep s.content) [] = some body) :
    parse_step a s =
      some { inside := false, name := s.name,
             docs := s.docs ++ [{ name := s.name, body := body }],
             content := s.content } := by
  obtain ⟨ins, nm, docs, content⟩ := s
  subst hin
  simp_all [parse_step]

theorem c6_trailer_keeps_content_witness :
    parse_step {} { inside := true, name := "Foo".toList, docs := [],
                    content := "***\n".toList } =
      some { inside := false, name := "Foo".toList,
             docs := [{ name := "Foo".toList, body := [] }],
             content := "***\n".toList } := by
  have h := c6_trailer_keeps_content {}
    { inside := true, name := "Foo".toList, docs := [], content := "***\n".toList }
    [] rfl (by decide)
  simpa using h

/-- C9: with rawEscapes (`-c`) set, every captured body line is appended
unchanged; otherwise every `\*` is replaced by `/*` and then every `*\`
by `*/` (lines 235-237), so a line `\*t*\` whose middle part avoids the
two escape characters renders as `/*t*/`. -/
theorem c9_escape_round_trip :
    (∀ s : Str, escape_body true s = s) ∧
    (∀ t : Str, (∀ ch ∈ t, ch ≠ '\\' ∧ ch ≠ '*') →
      escape_body false ('\\' :: '*' :: (t ++ ['*', '\\'])) =
        '/' :: '*' :: (t ++ ['*', '/'])) := by
  constructor
  · intro s
    simp [escape_body]
  · intro t ht
    have h1 : replaceAll '\\' ['*'] ['/', '*'] ('\\' :: '*' :: (t ++ ['*', '\\'])) =
        '/' :: '*' :: (t ++ ['*', '\\']) := by
      rw [replaceAll_cons, if_pos ⟨rfl, by simp [List.isPrefixOf]⟩]
      simp only [List.length_cons, List.length_nil, List.drop_succ_cons, List.drop_zero]
      rw [replaceAll_append_no_match _ _ _ t _ (fun ch hch => (ht ch hch).1)]
      rfl
    have hpre : List.isPrefixOf ['\\'] (t ++ ['*', '\\']) = false := by
      cases t with
      | nil => decide
      | cons c ts =>
          have hc : c ≠ '\\' := (ht c (by simp)).1
          simp [List.isPrefixOf, Ne.symm hc]
    have h2 : replaceAll '*' ['\\'] ['*', '/'] ('/' :: '*' :: (t ++ ['*', '\\'])) =
        '/' :: '*' :: (t ++ ['*', '/']) := by
      rw [replaceAll_cons, if_neg (by simp)]
      congr 1
      rw [replaceAll_cons, if_neg (by simp [hpre])]
      congr 1
      rw [replaceAll_append_no_match _ _ _ t _ (fun ch hch => (ht ch hch).2)]
      rfl
    simp only [escape_body, if_neg (by decide : ¬ (false = true)), h1, h2]

theorem c9_escape_round_trip_witness :
    escape_body false "\\*text*\\".toList = "/*text*/".toList := by
  have h := c9_escape_round_trip.2 "text".toList (by decide)
  exact h

theorem headAfterStars_name :
    ∀ (xs : Str) (t : Char) (nm rest : Str),
      headAfterStars xs = some (t, nm, rest) →
      ∀ ch ∈ nm, isPySpace ch = false := by
  intro xs t nm rest h ch hch
  cases xs with
  | nil => simp [headAfterStars] at h
  | cons c cs =>
      simp only [headAfterStars] at h
      repeat' split at h
      all_goals
        first
        | (simp only [Option.some.injEq, Prod.mk.injEq] at h
           obtain ⟨-, h2, -⟩ := h
           subst h2
           have hm := List.mem_takeWhile_imp hch
           simpa using hm)
        | simp_all

theorem headLoop_name :
    ∀ (j : Nat) (cs : Str) (t : Char) (nm rest : Str),
      headLoop cs j = some (t, nm, rest) →
      ∀ ch ∈ nm, isPySpace ch = false := by
  intro j
  induction j using Nat.strong_induction_on with
  | _ j ih =>
      intro cs t nm rest h
      match j with
      | 0 => simp [headLoop] at h
      | 1 => simp [headLoop] at h
      | 2 => simp [headLoop] at h
      | k + 3 =>
          simp only [headLoop] at h
          cases ha : headAfterStars (cs.drop (k + 3)) with
          | some r =>
              rw [ha] at h
              simp only [Option.some.injEq] at h
              subst h
              exact headAfterStars_name _ _ _ _ ha
          | none =>
              rw [ha] at h
              simp only at h
              exact ih (k + 2) (by omega) cs t nm rest h

theorem headMatchAt_name (s : Str) (t : Char) (nm rest : Str)
    (h : headMatchAt s = some (t, nm, rest)) :
    ∀ ch ∈ nm, isPySpace ch = false := by
  cases s with
  | nil => simp [headMatchAt] at h
  | cons c1 s1 =>
      cases s1 with
      | nil => simp [headMatchAt] at h
      | cons c2 cs =>
          simp only [headMatchAt] at h
          repeat' split at h
          all_goals
            first
            | exact headLoop_name _ _ _ _ _ h
            | simp_all

theorem head_search_name (s : Str) (t : Char) (nm rest : Str)
    (h : head_search s = some (t, nm, rest)) :
    ∀ ch ∈ nm, isPySpace ch = false := by
  unfold head_search at h
  generalize hn : s.length + 1 = n at h
  clear hn
  induction n generalizing s with
  | zero => simp [headSearchGo] at h
  | succ n ih =>
      simp only [headSearchGo] at h
      cases hm : headMatchAt s with
      | some r =>
          rw [hm] at h
          simp only [Option.some.injEq] at h
          subst h
          exact headMatchAt_name _ _ _ _ hm
      | none =>
          rw [hm] at h
          simp only at h
          cases s with
          | nil => simp at h
          | cons c cs => exact ih (afterNl (c :: cs)) h

theorem run_loop_names (a : Args) :
    ∀ (n : Nat) (s : PState) (docs : List Autodoc),
      (∀ ch ∈ s.name, isPySpace ch = false) →
      (∀ d ∈ s.docs, ∀ ch ∈ d.name, isPySpace ch = false) →
      run_loop a n s = some docs →
      ∀ d ∈ docs, ∀ ch ∈ d.name, isPySpace ch = false := by
  intro n
  induction n with
  | zero => intro s docs _ _ h; simp [run_loop] at h
  | succ n ih =>
      intro s docs hnm hdocs h
      simp only [run_loop] at h
      cases hp : parse_step a s with
      | none =>
          rw [hp] at h
          simp only [Option.some.injEq] at h
          subst h
          exact hdocs
      | some s2 =>
          rw [hp] at h
          simp only at h
          refine ih s2 docs ?_ ?_ h
          all_goals
            simp only [parse_step] at hp
            split at hp
            · cases hc : collect_lines a.c (splitLinesKeep s.content) [] with
              | some body =>
                  rw [hc] at hp
                  simp only [Option.some.injEq] at hp
                  subst hp
                  first
                  | exact hnm
                  | (intro d hd
                     rcases List.mem_append.mp hd with h1 | h1
                     · exact hdocs d h1
                     · rcases List.mem_singleton.mp h1 with rfl
                       exact hnm)
              | none =>
                  rw [hc] at hp
                  simp only [Option.some.injEq] at hp
                  subst hp
                  first | exact hnm | exact hdocs
            · cases hs : head_search s.content with
              | none => rw [hs] at hp; simp at hp
              | some r =>
                  obtain ⟨t, nm2, rest⟩ := r
                  rw [hs] at hp
                  simp only [Option.some.injEq] at hp
                  subst hp
                  first
                  | exact head_search_name _ _ _ _ hs
                  | exact hdocs

/-- C7 counterexample: the name group of `head_regex` is `(\S*)` - star,
not plus - so a header line with two spaces before the trailing stars
matches with an EMPTY name, and the parser constructs an entry whose
`name` is the empty string, contradicting the claimed invariant. -/
theorem c7_empty_name_counterexample :
    parse_file {} 10 "/* *****  ***\n****\n".toList =
      some [{ name := [], body := [] }] := by decide

/-- C7 amended: every constructed entry's name is a possibly-EMPTY
string of non-whitespace characters (so `name` contains no whitespace,
but need not be non-empty), and `body` is always a defined string (it is
total by construction in this model, initialised to the empty string). -/
theorem c7_names_whitespace_free (a : Args) (fuel : Nat) (content : Str)
    (docs : List Autodoc) (h : parse_file a fuel content = some docs) :
    ∀ d ∈ docs, ∀ ch ∈ d.name, isPySpace ch = false :=
  run_loop_names a fuel _ docs (by simp) (by simp) h

theorem c7_names_whitespace_free_witness :
    isPySpace 'F' = false ∧ isPySpace 'o' = false := by
  have h := c7_names_whitespace_free {} 9
    "/* ***** Foo ****\n***\n".toList
    [{ name := "Foo".toList, body := [] }] (by decide)
  exact ⟨h { name := "Foo".toList, body := [] } (by simp) 'F' (by simp),
         h { name := "Foo".toList, body := [] } (by simp) 'o' (by simp)⟩

theorem headAfterStars_shrink :
    ∀ (xs : Str) (t : Char) (nm rest : Str),
      headAfterStars xs = some (t, nm, rest) → rest.length < xs.length := by
  intro xs t nm rest h
  cases xs with
  | nil => simp [headAfterStars] at h
  | cons c cs =>
      simp only [headAfterStars] at h
      split at h
      · simp at h
      · split at h
        · simp at h
        · rename_i c2 rest1
          split at h
          · split at h
            · simp at h
            · rename_i c3 rest2
              split at h
              · split at h
                · simp at h
                · rename_i c4 rest4 hdrop
                  split at h
                  · simp only [Option.some.injEq, Prod.mk.injEq] at h
                    obtain ⟨-, -, h3⟩ := h
                    subst h3
                    have h5 := congrArg List.length hdrop
                    simp only [List.length_drop, List.length_cons] at h5
                    simp only [List.length_drop, List.length_cons]
                    omega
                  · simp at h
              · simp at h
          · simp at h

theorem headLoop_shrink :
    ∀ (j : Nat) (cs : Str) (t : Char) (nm rest : Str),
      headLoop cs j = some (t, nm, rest) → rest.length < cs.length := by
  intro j
  induction j using Nat.strong_induction_on with
  | _ j ih =>
      intro cs t nm rest h
      match j with
      | 0 => simp [headLoop] at h
      | 1 => simp [headLoop] at h
      | 2 => simp [headLoop] at h
      | k + 3 =>
          simp only [headLoop] at h
          cases ha : headAfterStars (cs.drop (k + 3)) with
          | some r =>
              rw [ha] at h
              simp only [Option.some.injEq] at h
              subst h
              have h1 := headAfterStars_shrink _ _ _ _ ha
              simp only [List.length_drop] at h1
              omega
          | none =>
              rw [ha] at h
              simp only at h
              exact ih (k + 2) (by omega) cs t nm rest h

theorem headMatchAt_shrink (s : Str) (t : Char) (nm rest : Str)
    (h : headMatchAt s = some (t, nm, rest)) : rest.length < s.length := by
  cases s with
  | nil => simp [headMatchAt] at h
  | cons c1 s1 =>
      cases s1 with
      | nil => simp [headMatchAt] at h
      | cons c2 cs =>
          simp only [headMatchAt] at h
          split at h
          · split at h
            · simp at h
            · rename_i c rest1
              split at h
              · have := headLoop_shrink _ _ _ _ _ h
                simp only [List.length_cons] at *
                omega
              · have := headLoop_shrink _ _ _ _ _ h
                simp only [List.length_cons] at *
                omega
          · simp at h

theorem headSearchGo_shrink :
    ∀ (n : Nat) (s : Str) (t : Char) (nm rest : Str),
      headSearchGo n s = some (t, nm, rest) → rest.length < s.length := by
  intro n
  induction n with
  | zero => intro s t nm rest h; simp [headSearchGo] at h
  | succ n ih =>
      intro s t nm rest h
      simp only [headSearchGo] at h
      cases hm : headMatchAt s with
      | some r =>
          rw [hm] at h
          simp only [Option.some.injEq] at h
          subst h
          exact headMatchAt_shrink _ _ _ _ hm
      | none =>
          rw [hm] at h
          simp only at h
          cases s with
          | nil => simp at h
          | cons c cs =>
              have h1 := ih _ _ _ _ h
              have h2 := afterNl_length_lt c cs
              simp only [List.length_cons] at *
              omega

theorem head_search_shrink (s : Str) (t : Char) (nm rest : Str)
    (h : head_search s = some (t, nm, rest)) : rest.length < s.length :=
  headSearchGo_shrink _ _ _ _ _ h

theorem filter_both_false (t : Char) :
    filter_decision { i := true, o := true } t = false := by
  unfold filter_decision
  split
  · rfl
  · split
    · rfl
    · rename_i h1 h2
      exfalso
      have hi : t = 'i' := by
        by_contra hne
        exact h1 ⟨rfl, hne⟩
      have ho : t = 'o' := by
        by_contra hne
        exact h2 ⟨rfl, hne⟩
      rw [hi] at ho
      exact absurd ho (by decide)

theorem run_both_terminates :
    ∀ (len : Nat) (content : Str), content.length ≤ len →
      ∀ (nm : Str) (D : List Autodoc),
        ∃ n, run_loop { i := true, o := true } n
            { inside := false, name := nm, docs := D, content := content } = some D := by
  intro len
  induction len with
  | zero =>
      intro content hlen nm D
      have hc : content = [] := List.length_eq_zero.mp (Nat.le_zero.mp hlen)
      subst hc
      exact ⟨1, by simp [run_loop, parse_step, head_search_nil]⟩
  | succ len ih =>
      intro content hlen nm D
      cases hs : head_search content with
      | none => exact ⟨1, by simp [run_loop, parse_step, hs]⟩
      | some r =>
          obtain ⟨t, nm2, rest⟩ := r
          have hlt := head_search_shrink _ _ _ _ hs
          obtain ⟨n, hn⟩ := ih rest (by omega) nm2 D
          refine ⟨n + 1, ?_⟩
          simp [run_loop, parse_step, hs, filter_both_false, hn]

/-- C10: with both restricting options set the two exclusion checks
together reject every classification character - a block tagged `i`
falls to the obsolete-only check, a block tagged `o` to the
internal-only check, and every other tag (including `*` and `f`) to the
first check - so the COLLECTING state is never entered: the filter
decision is false for every character and parsing any input text
terminates with the collection still empty. -/
theorem c10_both_filters_empty :
    (∀ t : Char, filter_decision { i := true, o := true } t = false) ∧
    (∀ content : Str, ∃ n,
      parse_file { i := true, o := true } n content = some []) := by
  refine ⟨filter_both_false, ?_⟩
  intro content
  obtain ⟨n, hn⟩ := run_both_terminates content.length content le_rfl [] []
  exact ⟨n, hn⟩

theorem takeWhile_exact (p : Char → Bool) (nm : Str) (y : Char) (ys : Str)
    (h : ∀ ch ∈ nm, p ch = true) (hy : p y = false) :
    (nm ++ y :: ys).takeWhile p = nm := by
  induction nm with
  | nil => simp [List.takeWhile_cons, hy]
  | cons c cs ih =>
      simp only [List.cons_append, List.takeWhile_cons, h c (by simp)]
      rw [ih (fun ch hch => h ch (by simp [hch]))]
      simp

theorem upToNl_breakfree (l : Str) (u : Str) (h : ∀ ch ∈ l, ch ≠ '\n') :
    upToNl (l ++ '\n' :: u) = some (l ++ ['\n']) := by
  induction l with
  | nil => simp [upToNl]
  | cons c cs ih =>
      have hc : c ≠ '\n' := h c (by simp)
      simp only [List.cons_append, upToNl, if_neg hc, List.append_eq]
      rw [ih (fun ch hch => h ch (by simp [hch]))]
      simp

theorem starRun_ne (c : Char) (cs : Str) (h : c ≠ '*') : starRun (c :: cs) = 0 := by
  simp [starRun, h]

theorem starRun_star (cs : Str) : starRun ('*' :: cs) = starRun cs + 1 := by
  simp [starRun]

theorem takeLine_breakfree (x : Str) (t : Str)
    (hbf : ∀ ch ∈ x, isLineBreak ch = false) :
    takeLine (x ++ '\n' :: t) = (x ++ ['\n'], t) := by
  induction x with
  | nil =>
      simp only [List.nil_append]
      rw [takeLine]
      rw [if_neg (by simp), if_pos (by decide)]
  | cons c cs ih =>
      have hc := hbf c (by simp)
      have hr : ¬(c = '\r' ∧ (cs ++ '\n' :: t).head? = some '\n') := by
        rintro ⟨rfl, -⟩
        exact absurd hc (by decide)
      simp only [List.cons_append]
      rw [takeLine.eq_def]
      simp only [if_neg hr, hc, Bool.false_eq_true, if_false]
      rw [ih (fun ch hch => hbf ch (by simp [hch]))]

theorem splitLinesKeep_line (x t : Str)
    (hbf : ∀ ch ∈ x, isLineBreak ch = false) :
    splitLinesKeep (x ++ '\n' :: t) = (x ++ ['\n']) :: splitLinesKeep t := by
  cases x with
  | nil =>
      simp only [List.nil_append]
      rw [splitLinesKeep_cons]
      have h := takeLine_breakfree [] t (by simp)
      simp only [List.nil_append] at h
      rw [h]
  | cons c cs =>
      simp only [List.cons_append]
      rw [splitLinesKeep_cons]
      have h := takeLine_breakfree (c :: cs) t hbf
      simp only [List.cons_append] at h
      rw [h]

theorem afterNl_junk (x : Str) (t : Str)
    (hbf : ∀ ch ∈ x, isLineBreak ch = false) :
    afterNl (x ++ '\n' :: t) = t := by
  induction x with
  | nil => simp [afterNl]
  | cons c cs ih =>
      have hc : c ≠ '\n' := by
        intro hh
        subst hh
        exact absurd (hbf '\n' (by simp)) (by decide)
      simp only [List.cons_append, afterNl, if_neg hc]
      exact ih (fun ch hch => hbf ch (by simp [hch]))

theorem headMatchAt_junk (x : Str) (t : Str) (hx : wfJunk x) :
    headMatchAt (x ++ '\n' :: t) = none := by
  obtain ⟨hbf, hstart⟩ := hx
  rcases hstart with rfl | hh
  · cases t with
    | nil => rfl
    | cons c2 cs => simp [headMatchAt]
  · cases x with
    | nil => simp at hh
    | cons c cs =>
        have hc : c = '*' := by simpa using hh
        subst hc
        cases cs with
        | nil => simp [headMatchAt]
        | cons c2 cs2 => simp [headMatchAt]

theorem head_search_junk (x t : Str) (hx : wfJunk x) :
    head_search (x ++ '\n' :: t) = head_search t := by
  have hm : headMatchAt (x ++ '\n' :: t) = none := headMatchAt_junk x t hx
  cases x with
  | nil =>
      rw [List.nil_append] at hm ⊢
      rw [head_search_step '\n' t hm]
      simp [afterNl]
  | cons c cs =>
      rw [List.cons_append] at hm ⊢
      rw [head_search_step c (cs ++ '\n' :: t) hm]
      have h2 := afterNl_junk (c :: cs) t hx.1
      rw [List.cons_append] at h2
      rw [h2]

theorem head_search_junkText (js : List Str) (u : Str)
    (h : ∀ j ∈ js, wfJunk j) :
    head_search (junkText js ++ u) = head_search u := by
  induction js with
  | nil => simp [junkText]
  | cons j js ih =>
      have hstep : junkText (j :: js) ++ u = j ++ '\n' :: (junkText js ++ u) := by
        simp [junkText, List.append_assoc]
      rw [hstep, head_search_junk j _ (h j (by simp)),
        ih (fun x hx => h x (by simp [hx]))]

theorem run_loop_mono (a : Args) :
    ∀ (n m : Nat) (s : PState) (r : List Autodoc),
      n ≤ m → run_loop a n s = some r → run_loop a m s = some r := by
  intro n
  induction n with
  | zero => intro m s r _ h2; simp [run_loop] at h2
  | succ n ih =>
      intro m s r hle h2
      match m, hle with
      | m' + 1, hle =>
          simp only [run_loop] at h2 ⊢
          cases hp : parse_step a s with
          | none => rw [hp] at h2; exact h2
          | some s2 =>
              rw [hp] at h2
              exact ih m' s2 r (by omega) h2

theorem headAfterStars_canonical (t : Char) (nm : Str) (R : Str)
    (htn : isPySpace t = false)
    (hnm : ∀ ch ∈ nm, isPySpace ch = false) :
    headAfterStars (t :: '*' :: ' ' ::
        (nm ++ (' ' :: '*' :: '*' :: '*' :: '\n' :: R))) =
      some (t, nm, '\n' :: R) := by
  have htn2 : ¬ t = '\n' := by
    intro hh
    subst hh
    exact absurd htn (by decide)
  have htake : List.takeWhile (fun ch => !isPySpace ch)
      (nm ++ (' ' :: '*' :: '*' :: '*' :: '\n' :: R)) = nm :=
    takeWhile_exact _ nm ' ' _ (fun ch hch => by simp [hnm ch hch]) (by decide)
  have hdrop : (nm ++ (' ' :: '*' :: '*' :: '*' :: '\n' :: R)).drop
      ((List.takeWhile (fun ch => !isPySpace ch)
        (nm ++ (' ' :: '*' :: '*' :: '*' :: '\n' :: R))).length) =
      ' ' :: '*' :: '*' :: '*' :: '\n' :: R := by
    rw [htake]
    exact List.drop_left nm _
  have hstar : starRun ('*' :: '*' :: '*' :: '\n' :: R) = 3 := by
    simp [starRun]
  simp only [headAfterStars, if_neg htn2, htake]
  rw [List.drop_left nm]
  rfl

theorem headAfterStars_at_space (nm : Str) (R : Str)
    (hne : nm ≠ []) (hnm : ∀ ch ∈ nm, isPySpace ch = false) :
    headAfterStars (' ' :: (nm ++ (' ' :: '*' :: '*' :: '*' :: '\n' :: R))) =
      none := by
  cases nm with
  | nil => exact absurd rfl hne
  | cons n0 nm1 =>
      by_cases h0 : n0 = '*'
      · subst h0
        cases nm1 with
        | nil => simp [headAfterStars, List.takeWhile_cons, isPySpace]
        | cons m0 nm2 =>
            have hm := hnm m0 (by simp)
            have hm2 : ¬ m0 = ' ' := by
              intro hh
              subst hh
              exact absurd hm (by decide)
            simp [headAfterStars, hm2]
      · simp [headAfterStars, h0]

theorem headLoop_succ3_none (cs : Str) (j : Nat)
    (h : headAfterStars (cs.drop (j + 3)) = none) :
    headLoop cs (j + 3) = headLoop cs (j + 2) := by
  simp only [headLoop, h]

theorem headLoop_succ3_some (cs : Str) (j : Nat) (r : Char × Str × Str)
    (h : headAfterStars (cs.drop (j + 3)) = some r) :
    headLoop cs (j + 3) = some r := by
  simp only [headLoop, h]

theorem headMatchAt_block (b : Block) (rest : Str) (hwf : wfBlock b) :
    headMatchAt (blockText b ++ rest) =
      some (b.btype, b.name,
        '\n' :: ((b.lines.map bodyLineText).flatten ++ (trailerText ++ rest))) := by
  obtain ⟨htn, ⟨hne, hnm⟩, -⟩ := hwf
  have hnorm : blockText b ++ rest =
      '/' :: '*' :: ' ' :: '*' :: '*' :: '*' :: b.btype :: '*' :: ' ' ::
        (b.name ++ (' ' :: '*' :: '*' :: '*' :: '\n' ::
          ((b.lines.map bodyLineText).flatten ++ (trailerText ++ rest)))) := by
    simp [blockText, blockHeader, List.append_assoc]
  rw [hnorm]
  generalize (b.lines.map bodyLineText).flatten ++ (trailerText ++ rest) = RR
  by_cases hbt : b.btype = '*'
  · rw [hbt]
    simp only [headMatchAt]
    rw [if_pos ⟨trivial, trivial⟩, if_pos (by decide : isPySpace ' ' = true)]
    set cs5 : Str := '*' :: '*' :: '*' :: '*' :: '*' :: ' ' ::
        (b.name ++ ' ' :: '*' :: '*' :: '*' :: '\n' :: RR) with hcs
    have h5 : starRun cs5 = 5 := by simp [hcs, starRun]
    rw [h5, show (5 : Nat) = 2 + 3 from rfl]
    have hA : headAfterStars (cs5.drop (2 + 3)) = none := by
      rw [hcs]
      exact headAfterStars_at_space b.name RR hne hnm
    rw [headLoop_succ3_none cs5 2 hA]
    rw [show (2 + 2 : Nat) = 1 + 3 from rfl]
    have hB : headAfterStars (cs5.drop (1 + 3)) = none := by
      rw [hcs]
      rfl
    rw [headLoop_succ3_none cs5 1 hB]
    rw [show (1 + 2 : Nat) = 0 + 3 from rfl]
    have hC : headAfterStars (cs5.drop (0 + 3)) =
        some ('*', b.name, '\n' :: RR) := by
      rw [hcs]
      exact headAfterStars_canonical '*' b.name RR (by decide) hnm
    rw [headLoop_succ3_some cs5 0 _ hC]
  · simp only [headMatchAt]
    rw [if_pos ⟨trivial, trivial⟩, if_pos (by decide : isPySpace ' ' = true)]
    set cs3 : Str := '*' :: '*' :: '*' :: b.btype :: '*' :: ' ' ::
        (b.name ++ ' ' :: '*' :: '*' :: '*' :: '\n' :: RR) with hcs
    have h3 : starRun cs3 = 3 := by simp [hcs, starRun, hbt]
    rw [h3, show (3 : Nat) = 0 + 3 from rfl]
    have hC : headAfterStars (cs3.drop (0 + 3)) =
        some (b.btype, b.name, '\n' :: RR) := by
      rw [hcs]
      exact headAfterStars_canonical b.btype b.name RR htn hnm
    rw [headLoop_succ3_some cs3 0 _ hC]

theorem starRun_wfLine (l : Str) (hh : l.head? ≠ some '*') :
    starRun (l ++ ['\n']) = 0 := by
  cases l with
  | nil => simp [starRun]
  | cons c cs =>
      have hc : c ≠ '*' := by
        intro h
        subst h
        exact hh (by simp)
      simp [starRun, hc]

theorem body_match_bodyline (l : Str) (hl : wfLine l) :
    body_match (bodyLineText l) = some (l ++ ['\n']) := by
  obtain ⟨hbf, hh⟩ := hl
  have h1 : starRun (bodyLineText l) = 1 := by
    simp [bodyLineText, starRun_star, starRun_wfLine l hh]
  have h2 : upToNl (l ++ ['\n']) = some (l ++ ['\n']) := by
    have h3 := upToNl_breakfree l [] (fun ch hch => by
      intro hn
      subst hn
      exact absurd (hbf '\n' hch) (by decide))
    simpa using h3
  simp only [body_match, h1]
  rw [if_pos (by omega)]
  simpa [bodyLineText] using h2

theorem tail_match_bodyline (l : Str) (hl : wfLine l) :
    tail_match (bodyLineText l) = false := by
  have h1 : starRun (bodyLineText l) = 1 := by
    simp [bodyLineText, starRun_star, starRun_wfLine l hl.2]
  simp [tail_match, h1]

theorem collect_lines_nl (raw : Bool) (rest : List Str) (acc : Str) :
    collect_lines raw (['\n'] :: rest) acc = collect_lines raw rest acc := rfl

theorem collect_lines_block (raw : Bool) (ls : List Str) (rest : List Str) (acc : Str)
    (hl : ∀ l ∈ ls, wfLine l) :
    collect_lines raw ((ls.map bodyLineText) ++ trailerText :: rest) acc =
      some (acc ++ (ls.map (fun l => escape_body raw (l ++ ['\n']))).flatten) := by
  induction ls generalizing acc with
  | nil =>
      simp only [List.map_nil, List.nil_append, List.flatten_nil, List.append_nil]
      rfl
  | cons l ls ih =>
      have hw := hl l (by simp)
      simp only [List.map_cons, List.cons_append, collect_lines,
        tail_match_bodyline l hw, Bool.false_eq_true, if_false,
        body_match_bodyline l hw, List.append_eq]
      rw [ih (acc ++ escape_body raw (l ++ ['\n'])) (fun x hx => hl x (by simp [hx]))]
      simp [List.append_assoc]

theorem splitLinesKeep_block (ls : List Str) (rest : Str)
    (hl : ∀ l ∈ ls, wfLine l) :
    splitLinesKeep ((ls.map bodyLineText).flatten ++ (trailerText ++ rest)) =
      (ls.map bodyLineText) ++ trailerText :: splitLinesKeep rest := by
  induction ls with
  | nil =>
      simp only [List.map_nil, List.flatten_nil, List.nil_append]
      have h : trailerText ++ rest = ['*', '*', '*', ' ', '*', '/'] ++ '\n' :: rest := by
        simp [trailerText]
      rw [h, splitLinesKeep_line _ _ (by decide)]
      rfl
  | cons l ls ih =>
      have hw := hl l (by simp)
      have hbf : ∀ ch ∈ ('*' :: l), isLineBreak ch = false := by
        intro ch hch
        rcases List.mem_cons.mp hch with rfl | hch2
        · decide
        · exact hw.1 ch hch2
      have hx : (((l :: ls).map bodyLineText).flatten ++ (trailerText ++ rest)) =
          ('*' :: l) ++ '\n' :: ((ls.map bodyLineText).flatten ++ (trailerText ++ rest)) := by
        simp [bodyLineText, List.append_assoc]
      rw [hx, splitLinesKeep_line _ _ hbf,
        ih (fun x hx2 => hl x (by simp [hx2]))]
      simp [bodyLineText]

theorem run_loop_succ_step (a : Args) (n : Nat) (s s2 : PState)
    (h : parse_step a s = some s2) :
    run_loop a (n + 1) s = run_loop a n s2 := by
  simp only [run_loop, h]

theorem run_loop_canonical (a : Args) :
    ∀ (bs : List Block) (js : List Str) (nm : Str) (D : List Autodoc),
      (∀ b ∈ bs, wfBlock b) → (∀ j ∈ js, wfJunk j) →
      run_loop a (2 * bs.length + 1)
          { inside := false, name := nm, docs := D,
            content := junkText js ++ blocksText bs } =
        some (D ++ keptDocs a bs) := by
  intro bs
  induction bs with
  | nil =>
      intro js nm D hwf hj
      have hs : head_search (junkText js ++ blocksText []) = none := by
        rw [head_search_junkText js _ hj]
        rfl
      simp [run_loop, parse_step, hs, keptDocs]
  | cons b bs ih =>
      intro js nm D hwf hj
      have hwb : wfBlock b := hwf b (by simp)
      have hbt : blocksText (b :: bs) = blockText b ++ blocksText bs := by
        simp [blocksText]
      have hsearch : head_search (junkText js ++ blocksText (b :: bs)) =
          some (b.btype, b.name,
            '\n' :: ((b.lines.map bodyLineText).flatten ++
              (trailerText ++ blocksText bs))) := by
        rw [head_search_junkText js _ hj, hbt]
        exact head_search_some (headMatchAt_block b (blocksText bs) hwb)
      have hjunk2 : ∀ j ∈ ([] :: (b.lines.map (fun l => '*' :: l)) ++
          [['*', '*', '*', ' ', '*', '/']]), wfJunk j := by
        intro j hj2
        rcases List.mem_cons.mp hj2 with rfl | hj3
        · exact ⟨by simp, Or.inl rfl⟩
        · rcases List.mem_append.mp hj3 with hj4 | hj4
          · obtain ⟨l, hl, rfl⟩ := List.mem_map.mp hj4
            refine ⟨?_, Or.inr (by simp)⟩
            intro ch hch
            rcases List.mem_cons.mp hch with rfl | hch2
            · decide
            · exact (hwb.2.2 l hl).1 ch hch2
          · rcases List.mem_singleton.mp hj4 with rfl
            exact ⟨by decide, Or.inr rfl⟩
      have hcontent : '\n' :: ((b.lines.map bodyLineText).flatten ++
            (trailerText ++ blocksText bs)) =
          junkText ([] :: (b.lines.map (fun l => '*' :: l)) ++
            [['*', '*', '*', ' ', '*', '/']]) ++ blocksText bs := by
        have hfun : List.map bodyLineText b.lines =
            List.map ((fun j => j ++ ['\n']) ∘ fun l => '*' :: l) b.lines := by
          apply List.map_congr_left
          intro x hx
          simp [bodyLineText, Function.comp]
        rw [hfun]
        simp [junkText, trailerText, List.append_assoc, List.map_map]
      have hstep1 : parse_step a
          { inside := false, name := nm, docs := D,
            content := junkText js ++ blocksText (b :: bs) } =
          some { inside := filter_decision a b.btype, name := b.name, docs := D,
                 content := '\n' :: ((b.lines.map bodyLineText).flatten ++
                   (trailerText ++ blocksText bs)) } := by
        simp [parse_step, hsearch]
      have hlen : 2 * (b :: bs).length + 1 = ((2 * bs.length + 1) + 1) + 1 := by
        simp [List.length_cons]
        omega
      rw [hlen, run_loop_succ_step a _ _ _ hstep1]
      by_cases hdec : filter_decision a b.btype = true
      · rw [hdec]
        have hsplit : splitLinesKeep
            ('\n' :: ((b.lines.map bodyLineText).flatten ++
              (trailerText ++ blocksText bs))) =
            ['\n'] :: ((b.lines.map bodyLineText) ++
              trailerText :: splitLinesKeep (blocksText bs)) := by
          have h1 := splitLinesKeep_line []
            ((b.lines.map bodyLineText).flatten ++ (trailerText ++ blocksText bs))
            (by simp)
          simp only [List.nil_append] at h1
          rw [h1, splitLinesKeep_block b.lines (blocksText bs) hwb.2.2]
        have hcollect : collect_lines a.c (splitLinesKeep
            ('\n' :: ((b.lines.map bodyLineText).flatten ++
              (trailerText ++ blocksText bs)))) [] =
            some ((b.lines.map (fun l => escape_body a.c (l ++ ['\n']))).flatten) := by
          rw [hsplit, collect_lines_nl,
            collect_lines_block a.c b.lines _ [] hwb.2.2]
          simp
        have hstep2 : parse_step a
            { inside := true, name := b.name, docs := D,
              content := '\n' :: ((b.lines.map bodyLineText).flatten ++
                (trailerText ++ blocksText bs)) } =
            some { inside := false, name := b.name,
                   docs := D ++ [canonical_doc a.c b],
                   content := '\n' :: ((b.lines.map bodyLineText).flatten ++
                     (trailerText ++ blocksText bs)) } := by
          simp [parse_step, hcollect, canonical_doc]
        rw [run_loop_succ_step a _ _ _ hstep2]
        have hIH := ih ([] :: (b.lines.map (fun l => '*' :: l)) ++
            [['*', '*', '*', ' ', '*', '/']]) b.name (D ++ [canonical_doc a.c b])
          (fun x hx => hwf x (by simp [hx])) hjunk2
        rw [← hcontent] at hIH
        rw [hIH]
        simp [keptDocs, hdec, List.append_assoc]
      · simp only [Bool.not_eq_true] at hdec
        rw [hdec]
        have hIH := ih ([] :: (b.lines.map (fun l => '*' :: l)) ++
            [['*', '*', '*', ' ', '*', '/']]) b.name D
          (fun x hx => hwf x (by simp [hx])) hjunk2
        rw [← hcontent] at hIH
        have hmono := run_loop_mono a (2 * bs.length + 1) ((2 * bs.length + 1) + 1)
          _ _ (by omega) hIH
        rw [hmono]
        simp [keptDocs, hdec]

theorem parse_file_canonical (a : Args) (bs : List Block)
    (hwf : ∀ b ∈ bs, wfBlock b) :
    parse_file a (2 * bs.length + 1) (blocksText bs) = some (keptDocs a bs) := by
  have h := run_loop_canonical a bs [] [] [] hwf (by simp)
  simpa [parse_file, junkText] using h

theorem strLt_irrefl : ∀ s : Str, strLt s s = false := by
  intro s
  induction s with
  | nil => rfl
  | cons c cs ih => simp [strLt, lt_irrefl, ih]

theorem strLt_asymm : ∀ a b : Str, strLt a b = true → strLt b a = false := by
  intro a
  induction a with
  | nil =>
      intro b h
      cases b with
      | nil => simp [strLt] at h
      | cons d ds => rfl
  | cons c cs ih =>
      intro b h
      cases b with
      | nil => simp [strLt] at h
      | cons d ds =>
          simp only [strLt] at h ⊢
          by_cases h1 : c < d
          · rw [if_neg (lt_asymm h1), if_pos h1]
          · by_cases h2 : d < c
            · rw [if_neg h1, if_pos h2] at h
              exact absurd h (by simp)
            · rw [if_neg h1, if_neg h2] at h
              rw [if_neg h2, if_neg h1]
              exact ih ds h

theorem strLt_trans : ∀ a b c : Str,
    strLt a b = true → strLt b c = true → strLt a c = true := by
  intro a
  induction a with
  | nil =>
      intro b c h1 h2
      cases b with
      | nil => simp [strLt] at h1
      | cons y ys =>
          cases c with
          | nil => simp [strLt] at h2
          | cons z zs => rfl
  | cons x xs ih =>
      intro b c h1 h2
      cases b with
      | nil => simp [strLt] at h1
      | cons y ys =>
          cases c with
          | nil => simp [strLt] at h2
          | cons z zs =>
              simp only [strLt] at h1 h2 ⊢
              by_cases hxy : x < y
              · by_cases hyz : y < z
                · rw [if_pos (lt_trans hxy hyz)]
                · rw [if_neg hyz] at h2
                  by_cases hzy : z < y
                  · rw [if_pos hzy] at h2
                    exact absurd h2 (by simp)
                  · have hyeq : y = z := le_antisymm (not_lt.mp hzy) (not_lt.mp hyz)
                    subst hyeq
                    rw [if_pos hxy]
              · rw [if_neg hxy] at h1
                by_cases hyx : y < x
                · rw [if_pos hyx] at h1
                  exact absurd h1 (by simp)
                · rw [if_neg hyx] at h1
                  have hxeq : x = y := le_antisymm (not_lt.mp hyx) (not_lt.mp hxy)
                  subst hxeq
                  by_cases hyz : x < z
                  · rw [if_pos hyz]
                  · rw [if_neg hyz] at h2 ⊢
                    by_cases hzy : z < x
                    · rw [if_pos hzy] at h2
                      exact absurd h2 (by simp)
                    · rw [if_neg hzy] at h2 ⊢
                      exact ih ys zs h1 h2

theorem strLt_eq_of_not : ∀ a b : Str,
    strLt a b = false → strLt b a = false → a = b := by
  intro a
  induction a with
  | nil =>
      intro b h1 _
      cases b with
      | nil => rfl
      | cons d ds => simp [strLt] at h1
  | cons c cs ih =>
      intro b h1 h2
      cases b with
      | nil => simp [strLt] at h2
      | cons d ds =>
          simp only [strLt] at h1 h2
          by_cases hcd : c < d
          · rw [if_pos hcd] at h1
            exact absurd h1 (by simp)
          · by_cases hdc : d < c
            · rw [if_pos hdc] at h2
              exact absurd h2 (by simp)
            · rw [if_neg hcd, if_neg hdc] at h1
              rw [if_neg hdc, if_neg hcd] at h2
              have hce : c = d := le_antisymm (not_lt.mp hdc) (not_lt.mp hcd)
              rw [hce, ih ds h1 h2]

theorem adoc_lt_neg_trans (x e d : Autodoc)
    (h1 : adoc_lt x e = false) (h2 : adoc_lt e d = false) :
    adoc_lt x d = false := by
  unfold adoc_lt at *
  by_contra hpos
  rw [Bool.not_eq_false] at hpos
  by_cases hex : strLt (lowerStr e.name) (lowerStr x.name) = true
  · have := strLt_trans _ _ _ hex hpos
    rw [this] at h2
    exact absurd h2 (by simp)
  · rw [Bool.not_eq_true] at hex
    have heq := strLt_eq_of_not _ _ h1 hex
    rw [heq] at hpos
    rw [hpos] at h2
    exact absurd h2 (by simp)

theorem insertDoc_mem (d x : Autodoc) (l : List Autodoc)
    (h : x ∈ insertDoc d l) : x = d ∨ x ∈ l := by
  induction l with
  | nil => simpa [insertDoc] using h
  | cons e es ih =>
      simp only [insertDoc] at h
      split at h
      · rcases List.mem_cons.mp h with rfl | h2
        · exact Or.inr (by simp)
        · rcases ih h2 with h3 | h3
          · exact Or.inl h3
          · exact Or.inr (by simp [h3])
      · rcases List.mem_cons.mp h with rfl | h2
        · exact Or.inl rfl
        · exact Or.inr h2

theorem insertDoc_perm (d : Autodoc) (l : List Autodoc) :
    (insertDoc d l).Perm (d :: l) := by
  induction l with
  | nil => exact List.Perm.refl _
  | cons e es ih =>
      simp only [insertDoc]
      split
      · exact (ih.cons e).trans (List.Perm.swap d e es)
      · exact List.Perm.refl _

theorem sort_autodocs_perm (l : List Autodoc) : (sort_autodocs l).Perm l := by
  induction l with
  | nil => exact List.Perm.refl _
  | cons d ds ih =>
      exact (insertDoc_perm d (sort_autodocs ds)).trans (ih.cons d)

theorem insertDoc_pairwise (d : Autodoc) (l : List Autodoc)
    (h : List.Pairwise (fun x y => adoc_lt y x = false) l) :
    List.Pairwise (fun x y => adoc_lt y x = false) (insertDoc d l) := by
  induction l with
  | nil => simp [insertDoc]
  | cons e es ih =>
      rw [List.pairwise_cons] at h
      simp only [insertDoc]
      split
      · rename_i hlt
        refine List.Pairwise.cons ?_ (ih h.2)
        intro x hx
        rcases insertDoc_mem d x es hx with rfl | hx2
        · exact strLt_asymm _ _ hlt
        · exact h.1 x hx2
      · rename_i hlt
        rw [Bool.not_eq_true] at hlt
        refine List.Pairwise.cons ?_ (List.Pairwise.cons h.1 h.2)
        intro x hx
        rcases List.mem_cons.mp hx with rfl | hx2
        · exact hlt
        · exact adoc_lt_neg_trans x e d (h.1 x hx2) hlt

theorem sort_autodocs_pairwise (l : List Autodoc) :
    List.Pairwise (fun x y => adoc_lt y x = false) (sort_autodocs l) := by
  induction l with
  | nil => simp [sort_autodocs]
  | cons d ds ih => exact insertDoc_pairwise d _ ih

theorem insertDoc_filter_key (d : Autodoc) (l : List Autodoc) (k : Str) :
    (insertDoc d l).filter (fun x => decide (lowerStr x.name = k)) =
      if lowerStr d.name = k then
        d :: l.filter (fun x => decide (lowerStr x.name = k))
      else l.filter (fun x => decide (lowerStr x.name = k)) := by
  induction l with
  | nil =>
      simp only [insertDoc, List.filter]
      split <;> simp_all
  | cons e es ih =>
      simp only [insertDoc]
      split
      · rename_i hlt
        by_cases hek : lowerStr e.name = k
        · by_cases hdk : lowerStr d.name = k
          · exfalso
            have hre : adoc_lt e d = false := by
              unfold adoc_lt
              rw [hek, hdk, strLt_irrefl]
            rw [hre] at hlt
            exact absurd hlt (by simp)
          · simp [List.filter_cons, hek, hdk, ih]
        · simp [List.filter_cons, hek, ih]
      · by_cases hdk : lowerStr d.name = k
        · simp [List.filter_cons, hdk]
        · simp [List.filter_cons, hdk]

theorem sort_autodocs_filter_key (l : List Autodoc) (k : Str) :
    (sort_autodocs l).filter (fun x => decide (lowerStr x.name = k)) =
      l.filter (fun x => decide (lowerStr x.name = k)) := by
  induction l with
  | nil => rfl
  | cons d ds ih =>
      simp only [sort_autodocs]
      rw [insertDoc_filter_key]
      by_cases hdk : lowerStr d.name = k
      · simp [List.filter_cons, hdk, ih]
      · simp [List.filter_cons, hdk, ih]

theorem filter_decision_internal (t : Char) :
    filter_decision { i := true } t = decide (t = 'i') := by
  by_cases h : t = 'i'
  · subst h
    decide
  · simp [filter_decision, h]

theorem filter_decision_eq_spec (a : Args) (t : Char) :
    filter_decision a t = filter_spec_rules a t := by
  obtain ⟨ai, ao, au, al, ac, af, aI⟩ := a
  unfold filter_decision filter_spec_rules
  cases ai <;> cases ao <;> cases au <;>
    by_cases hi : t = 'i' <;> by_cases ho : t = 'o' <;>
    by_cases hf : t = 'f' <;> by_cases hs : t = '*' <;>
    simp_all

/-- C2: on canonical well-formed input parsed with internalOnly set (and
the other filters clear), exactly the blocks classified `i` are
collected - in particular every `o` block is absent and every `i` block
is present; moreover the code's sequential filter (exclusion `continue`s
then independent inclusion `if`s) decides exactly like the spec's seven
priority-ordered rules, for every flag combination and every
classification character. -/
theorem c2_internal_only_filtering (bs : List Block)
    (hwf : ∀ b ∈ bs, wfBlock b) :
    parse_file { i := true } (2 * bs.length + 1) (blocksText bs) =
      some ((bs.filter (fun b => decide (b.btype = 'i'))).map (canonical_doc false)) ∧
    (∀ t : Char, filter_decision { i := true } t = decide (t = 'i')) ∧
    (∀ (a : Args) (t : Char), filter_decision a t = filter_spec_rules a t) := by
  refine ⟨?_, filter_decision_internal, filter_decision_eq_spec⟩
  have h := parse_file_canonical { i := true } bs hwf
  rw [h]
  unfold keptDocs
  rw [show ({ i := true } : Args).c = false from rfl]
  congr 2
  apply List.filter_congr
  intro b hb
  exact filter_decision_internal b.btype

theorem c2_internal_only_filtering_witness :
    parse_file { i := true }
        (2 * ([⟨'i', "Alpha".toList, ["  doc".toList]⟩,
               ⟨'o', "Beta".toList, []⟩] : List Block).length + 1)
        (blocksText [⟨'i', "Alpha".toList, ["  doc".toList]⟩,
                     ⟨'o', "Beta".toList, []⟩]) =
      some (([⟨'i', "Alpha".toList, ["  doc".toList]⟩,
              ⟨'o', "Beta".toList, []⟩] : List Block).filter
          (fun b => decide (b.btype = 'i')) |>.map (canonical_doc false)) :=
  (c2_internal_only_filtering
    [⟨'i', "Alpha".toList, ["  doc".toList]⟩, ⟨'o', "Beta".toList, []⟩]
    (by decide)).1

/-- C3: canonical well-formed input with well-terminated blocks of
default classification and distinct names parses (with all filters
disabled) to exactly those n entries in discovery order; sorting is a
permutation that is ordered ascending under the case-insensitive
comparison `adoc_lt` and stable (entries with any given lowercased name
key keep their relative order); rendering emits the sorted entries in
list order; and `apple` sorts before `Zebra`. -/
theorem c3_parse_sort_all_blocks (bs : List Block)
    (hwf : ∀ b ∈ bs, wfBlock b) (hstar : ∀ b ∈ bs, b.btype = '*')
    (hdist : (bs.map Block.name).Nodup) :
    parse_file {} (2 * bs.length + 1) (blocksText bs) =
      some (bs.map (canonical_doc false)) ∧
    (∀ docs : List Autodoc,
      (sort_autodocs docs).Perm docs ∧
      List.Pairwise (fun x y => adoc_lt y x = false) (sort_autodocs docs) ∧
      (∀ k : Str,
        (sort_autodocs docs).filter (fun d => decide (lowerStr d.name = k)) =
          docs.filter (fun d => decide (lowerStr d.name = k)))) ∧
    (∀ a : Args,
      write_autodocs a (sort_autodocs (bs.map (canonical_doc false))) =
        ((sort_autodocs (bs.map (canonical_doc false))).map (adoc_write a)).flatten) ∧
    sort_autodocs [{ name := "Zebra".toList, body := [] },
                   { name := "apple".toList, body := [] }] =
      [{ name := "apple".toList, body := [] },
       { name := "Zebra".toList, body := [] }] := by
  refine ⟨?_,
    fun docs => ⟨sort_autodocs_perm docs, sort_autodocs_pairwise docs,
      fun k => sort_autodocs_filter_key docs k⟩,
    fun a => rfl, by decide⟩
  have h := parse_file_canonical {} bs hwf
  rw [h]
  unfold keptDocs
  rw [show ({} : Args).c = false from rfl]
  congr 2
  apply List.filter_eq_self.mpr
  intro b hb
  rw [hstar b hb]
  decide

theorem c3_parse_sort_all_blocks_witness :
    parse_file {}
        (2 * ([⟨'*', "Zebra".toList, []⟩,
               ⟨'*', "apple".toList, []⟩] : List Block).length + 1)
        (blocksText [⟨'*', "Zebra".toList, []⟩, ⟨'*', "apple".toList, []⟩]) =
      some (([⟨'*', "Zebra".toList, []⟩,
              ⟨'*', "apple".toList, []⟩] : List Block).map (canonical_doc false)) :=
  (c3_parse_sort_all_blocks
    [⟨'*', "Zebra".toList, []⟩, ⟨'*', "apple".toList, []⟩]
    (by decide) (by decide) (by decide)).1
